import Mathlib

/-!
Verification of the two heuristic scanners of this repository:
`scripts/analyze_project.py` (build topology + module inference) and
`scripts/find_key_functions.py` (function-declaration extraction and
classification).  The Python regular expressions are embedded as
executable character-level matchers that reproduce the backtracking
behaviour of the concrete patterns used by the scripts; file-system
enumeration (`Path.rglob`) is modelled by passing the enumerated file
list explicitly and filtering on the glob suffix, and an absent file or
directory is modelled by an `Option` input being `none`.
-/

namespace CppAnalyzer

/-! ### Character classes (`\w`, `\s`, `\d` and the bespoke classes of the
patterns), on ASCII which is what the analysed sources use -/

def lbrace : Char := '\x7b'

def rbrace : Char := '\x7d'

def isWordChar (c : Char) : Bool := c.isAlpha || c.isDigit || c == '_'

def isSpaceChar (c : Char) : Bool :=
  c == ' ' || c == '\t' || c == '\n' || c == '\r' || c == '\x0b' || c == '\x0c'

def isDigitChar (c : Char) : Bool := c.isDigit

/-- The return-type class of FUNCTION_PATTERN: `[\w:<>,\s\*&]`. -/
def isRTChar (c : Char) : Bool :=
  isWordChar c || c == ':' || c == '<' || c == '>' || c == ',' ||
    isSpaceChar c || c == '*' || c == '&'

/-- The function-name class of FUNCTION_PATTERN: `[\w~]`. -/
def isNameChar (c : Char) : Bool := isWordChar c || c == '~'

/-! ### Lexical helpers -/

def startsWithL : List Char → List Char → Bool
  | [], _ => true
  | _ :: _, [] => false
  | a :: as, b :: bs => a == b && startsWithL as bs

/-- Python `needle in haystack` substring test. -/
def containsL (needle : List Char) : List Char → Bool
  | [] => startsWithL needle []
  | c :: rest => startsWithL needle (c :: rest) || containsL needle rest

/-- Match a literal, case sensitively; return the remainder. -/
def lexLit : List Char → List Char → Option (List Char)
  | [], cs => some cs
  | _ :: _, [] => none
  | l :: ls, c :: cs => if c == l then lexLit ls cs else none

/-- Match a literal case-insensitively (`re.IGNORECASE` over ASCII). -/
def lexLitCI : List Char → List Char → Option (List Char)
  | [], cs => some cs
  | _ :: _, [] => none
  | l :: ls, c :: cs => if c.toLower == l.toLower then lexLitCI ls cs else none

def lexChar (ch : Char) : List Char → Option (List Char)
  | c :: cs => if c == ch then some cs else none
  | [] => none

/-- `\s*`, greedy.  In every position the patterns use it, the following
atom cannot consume a space character, so maximal munch is exact. -/
def dropSpaces (cs : List Char) : List Char := cs.dropWhile isSpaceChar

/-- `\s+`, greedy (maximal munch is exact for the same reason). -/
def lexSpaces1 : List Char → Option (List Char)
  | c :: cs => if isSpaceChar c then some (cs.dropWhile isSpaceChar) else none
  | [] => none

/-- A greedy nonempty character-class run such as `\w+` or `\d+`;
returns the (nonempty) run and the remainder. -/
def lexClass1 (p : Char → Bool) : List Char → Option (List Char × List Char)
  | [] => none
  | c :: cs => if p c then some (c :: cs.takeWhile p, cs.dropWhile p) else none

/-- Python `str.strip()`. -/
def pyStrip (cs : List Char) : List Char :=
  ((cs.dropWhile isSpaceChar).reverse.dropWhile isSpaceChar).reverse

/-! ### `re.finditer` / `re.search`

`reFindAux` replicates `finditer`: scan start positions left to right,
emit the match found at the leftmost successful position, continue after
its end (matches do not overlap).  A matcher returns the captured data
and the remainder of the input after the match.  The fuel argument is an
upper bound on the number of scanning steps; `reFind` supplies
`length + 1`, which suffices because every step either advances one
position or consumes a nonempty match. -/

def reFindAux {α : Type} (matchAt : List Char → Option (α × List Char)) :
    Nat → List Char → Nat → List (α × Nat)
  | 0, _, _ => []
  | _ + 1, [], _ => []
  | fuel + 1, c :: rest, i =>
    match matchAt (c :: rest) with
    | some (a, rem) =>
      let len := (c :: rest).length - rem.length
      if len == 0 then reFindAux matchAt fuel rest (i + 1)
      else (a, i) :: reFindAux matchAt fuel rem (i + len)
    | none => reFindAux matchAt fuel rest (i + 1)

/-- All matches with their start offsets, in order. -/
def reFind {α : Type} (matchAt : List Char → Option (α × List Char))
    (cs : List Char) : List (α × Nat) :=
  reFindAux matchAt (cs.length + 1) cs 0

/-- `re.search`: the first (leftmost) match only. -/
def reSearch {α : Type} (matchAt : List Char → Option (α × List Char))
    (cs : List Char) : Option α :=
  match reFind matchAt cs with
  | [] => none
  | (a, _) :: _ => some a

/-! ### Relative paths

A scanned file is its path relative to the scan root, as the list of
path segments (`PurePath.parts`), plus its text content.  `relStr` is
`str(relative)` on a POSIX system and `lastPart` is `Path.name`. -/

structure HeaderFile where
  parts : List String
  content : String
deriving DecidableEq

def relStr : List String → String
  | [] => ""
  | [p] => p
  | p :: q :: rest => p ++ "/" ++ relStr (q :: rest)

def lastPart : List String → String
  | [] => ""
  | [p] => p
  | _ :: q :: rest => lastPart (q :: rest)

/-- `s` ends with `suffixStr`; this is what `Path.rglob("*.ext")`
tests on the file name. -/
def strEnds (s suffixStr : String) : Bool :=
  startsWithL suffixStr.toList.reverse s.toList.reverse

/-! ## `find_key_functions.py` -/

/-- The `FunctionInfo` dataclass. -/
structure FunctionInfo where
  name : String
  full_name : String
  file : String
  line : Nat
  signature : String
  return_type : String
  priority : String
  category : String
deriving DecidableEq

/-- One entry of the `KEYWORD_PATTERNS` dict. -/
structure KeywordGroup where
  keywords : List String
  priority : String
  category : String
deriving DecidableEq

/-- `KEYWORD_PATTERNS`, in dict insertion order
(protocol, business, network, utility). -/
def KEYWORD_PATTERNS : List KeywordGroup :=
  [ ⟨["parse", "decode", "serialize", "deserialize", "encode", "unpack", "pack"],
      "P0", "protocol"⟩,
    ⟨["handle", "process", "execute", "transition", "validate"], "P1", "business"⟩,
    ⟨["send", "receive", "read", "write", "connect", "accept", "async"], "P2", "network"⟩,
    ⟨["to", "from", "convert", "format", "get", "set", "is", "has"], "P3", "utility"⟩ ]

/-- `classify_function`: lower-case the name, walk the groups in dict
order, return the priority/category of the first group one of whose
keywords occurs as a substring; default `("P3", "utility")`. -/
def classify_function (name : String) : String × String :=
  match KEYWORD_PATTERNS.find?
      (fun g => g.keywords.any
        (fun k => containsL k.toList (name.toList.map Char.toLower))) with
  | some g => (g.priority, g.category)
  | none => ("P3", "utility")

/-- The three capture groups of one FUNCTION_PATTERN match. -/
structure FnRaw where
  rt : List Char
  nm : List Char
  params : List Char
deriving DecidableEq

/-- Terminator `(?:;|=|\{)`. -/
def fnTerm : List Char → Option (List Char)
  | c :: cs => if c == ';' || c == '=' || c == lbrace then some cs else none
  | [] => none

/-- `\s*(?:;|=|\{)`. -/
def fnFinal (cs : List Char) : Option (List Char) := fnTerm (dropSpaces cs)

/-- `(?:\s*override)?\s*(?:;|=|\{)` with backtracking: try with the
optional group consumed first, fall back to skipping it. -/
def tryOverride (cs : List Char) : Option (List Char) :=
  (match lexLit "override".toList (dropSpaces cs) with
   | some r => fnFinal r
   | none => none) <|> fnFinal cs

/-- `(?:\s*noexcept)?` then the rest, with backtracking. -/
def tryNoexcept (cs : List Char) : Option (List Char) :=
  (match lexLit "noexcept".toList (dropSpaces cs) with
   | some r => tryOverride r
   | none => none) <|> tryOverride cs

/-- `\s*(?:const)?` then the rest, with backtracking. -/
def fnTrailing (cs : List Char) : Option (List Char) :=
  let cs1 := dropSpaces cs
  (match lexLit "const".toList cs1 with
   | some r => tryNoexcept r
   | none => none) <|> tryNoexcept cs1

/-- After a fixed return-type prefix: `\s+([\w~]+)\s*\(([^)]*)\)` and the
trailing part; the name run, the parameter run and `[^)]*` are greedy
and, their follow sets being disjoint, exact without backtracking. -/
def fnAfterRT (cs : List Char) : Option ((List Char × List Char) × List Char) :=
  match lexSpaces1 cs with
  | none => none
  | some cs1 =>
    match lexClass1 isNameChar cs1 with
    | none => none
    | some (nm, cs2) =>
      match lexChar '(' (dropSpaces cs2) with
      | none => none
      | some cs3 =>
        let ps := cs3.takeWhile (fun c => !(c == ')'))
        match lexChar ')' (cs3.dropWhile (fun c => !(c == ')'))) with
        | none => none
        | some cs4 =>
          match fnTrailing cs4 with
          | none => none
          | some rem => some ((nm, ps), rem)

/-- The lazy return-type group `([\w:<>,\s\*&]+?)`: grow the run one
character at a time (shortest first, Python's lazy order) and take the
first length for which the rest of the pattern matches. -/
def fnRTLoop (rtAcc : List Char) : List Char → Option (FnRaw × List Char)
  | [] => none
  | c :: rest =>
    if isRTChar c then
      let rt := rtAcc ++ [c]
      match fnAfterRT rest with
      | some ((nm, ps), rem) => some (⟨rt, nm, ps⟩, rem)
      | none => fnRTLoop rt rest
    else none

/-- An optional qualifier group such as `(?:virtual\s+)?`: the literal
followed by at least one space. -/
def lexQual (w : List Char) (cs : List Char) : Option (List Char) :=
  match lexLit w cs with
  | some r => lexSpaces1 r
  | none => none

def fnBody (cs : List Char) : Option (FnRaw × List Char) := fnRTLoop [] cs

def fnWithInline (cs : List Char) : Option (FnRaw × List Char) :=
  (match lexQual "inline".toList cs with
   | some r => fnBody r
   | none => none) <|> fnBody cs

def fnWithStatic (cs : List Char) : Option (FnRaw × List Char) :=
  (match lexQual "static".toList cs with
   | some r => fnWithInline r
   | none => none) <|> fnWithInline cs

/-- FUNCTION_PATTERN matched at one position (greedy optional
qualifiers, taken-first with fallback, in pattern order). -/
def fnMatchAt (cs : List Char) : Option (FnRaw × List Char) :=
  (match lexQual "virtual".toList cs with
   | some r => fnWithStatic r
   | none => none) <|> fnWithStatic cs

/-- CLASS_PATTERN `(?:class|struct)\s+(\w+)\s*(?::\s*[^{]+)?\s*\{` after
the name: optional base clause.  With the base clause present the match
always ends right after the first following open brace, which must not
come immediately after the colon (`[^{]+` is nonempty). -/
def afterBrace : List Char → Option (List Char)
  | [] => none
  | c :: cs => if c == lbrace then some cs else afterBrace cs

def classTail (nm : List Char) (cs : List Char) : Option (List Char × List Char) :=
  match dropSpaces cs with
  | [] => none
  | c :: rest =>
    if c == lbrace then some (nm, rest)
    else if c == ':' then
      match rest with
      | [] => none
      | d :: rest2 =>
        if d == lbrace then none
        else (afterBrace rest2).map (fun r => (nm, r))
    else none

/-- CLASS_PATTERN matched at one position; captures the type name. -/
def classMatchAt (cs : List Char) : Option (List Char × List Char) :=
  match (match lexLit "class".toList cs with
         | some r => some r
         | none => lexLit "struct".toList cs) with
  | none => none
  | some r1 =>
    match lexSpaces1 r1 with
    | none => none
    | some r2 =>
      match lexClass1 isWordChar r2 with
      | none => none
      | some (nm, r3) => classTail nm r3

/-- All FUNCTION_PATTERN matches of the file text with start offsets. -/
def fnMatches (cs : List Char) : List (FnRaw × Nat) := reFind fnMatchAt cs

/-- The class-attribution re-scan of `extract_functions`: run
CLASS_PATTERN.finditer over `content[:pos]` (the text truncated at the
function match's start) and keep the last captured name, `""` if none. -/
def lastClassBefore (cs : List Char) (pos : Nat) : String :=
  (((reFind classMatchAt (cs.take pos)).map (fun q => String.mk q.1))).getLastD ""

/-- The per-match body of the `extract_functions` loop: strip the
groups, drop destructors (`~` prefix), the constructor heuristic
(return-type text equal to the name text) and `operator` names, then
build the record. -/
def emitOne (fileName : String) (cs : List Char) (p : FnRaw × Nat) :
    Option FunctionInfo :=
  let rt := pyStrip p.1.rt
  let nm := pyStrip p.1.nm
  let ps := pyStrip p.1.params
  if startsWithL ['~'] nm || rt == nm then none
  else if startsWithL "operator".toList nm then none
  else
    let nmS := String.mk nm
    let className := lastClassBefore cs p.2
    some
      { name := nmS
        full_name := if className == "" then nmS else className ++ "::" ++ nmS
        file := fileName
        line := (cs.take p.2).count '\n' + 1
        signature := String.mk (rt ++ (' ' :: nm) ++ ('(' :: ps) ++ [')'])
        return_type := String.mk rt
        priority := (classify_function nmS).1
        category := (classify_function nmS).2 }

/-- `extract_functions` on one file's text.  (The per-line brace-depth
tracker computed by the Python code is dead: its `current_class` is
recomputed from scratch by the prefix re-scan before use, so it is not
modelled.) -/
def extract_functions (fileName : String) (content : String) : List FunctionInfo :=
  (fnMatches content.toList).filterMap (emitOne fileName content.toList)

/-- `scan_directory`: extract from every `*.hpp` file, then from every
`*.h` file, rewriting `file` to the root-relative path. -/
def scan_directory (files : List HeaderFile) : List FunctionInfo :=
  ((files.filter (fun f => strEnds (lastPart f.parts) ".hpp")).flatMap
    (fun f => (extract_functions (lastPart f.parts) f.content).map
      (fun fi => { fi with file := relStr f.parts })))
  ++ ((files.filter (fun f => strEnds (lastPart f.parts) ".h")).flatMap
    (fun f => (extract_functions (lastPart f.parts) f.content).map
      (fun fi => { fi with file := relStr f.parts })))

/-- Modelled from the claim's wording, not from the code: the last
CLASS_PATTERN match OF THE WHOLE TEXT whose start offset precedes
`pos`.  Compare with `lastClassBefore`, which truncates the text at
`pos` before matching. -/
def lastClassStartingBefore (cs : List Char) (pos : Nat) : String :=
  ((((reFind classMatchAt cs).filter (fun q => q.2 < pos)).map
      (fun q => String.mk q.1))).getLastD ""

/-! ## `analyze_project.py` -/

/-- The `Module` dataclass (`namespace` is a Lean keyword, hence
`nspace`). -/
structure Module where
  name : String
  nspace : String
  headers : List String
  sources : List String
  dependencies : List String
deriving DecidableEq

/-- The `BuildTarget` dataclass.  Its `sources` list is never populated
by `parse_cmake` (a documented gap). -/
structure BuildTarget where
  name : String
  type : String
  sources : List String
deriving DecidableEq

/-- The `ProjectInfo` dataclass. -/
structure ProjectInfo where
  name : String
  cpp_standard : String
  build_targets : List BuildTarget
  modules : List Module
  external_deps : List String
deriving DecidableEq

/-- The `info` dict built by `parse_cmake`.  All four keys are stored
unconditionally (initialised to empty values at the top of the
function), which matters for the `dict.get` defaults used by
`analyze_project`.  A target is a `(type, name)` pair. -/
structure CMakeInfo where
  project_name : String
  cpp_standard : String
  targets : List (String × String)
  find_packages : List String
deriving DecidableEq

/-- `project\s*\(\s*(\w+)` with IGNORECASE, at one position. -/
def projMatchAt (cs : List Char) : Option (List Char × List Char) :=
  match lexLitCI "project".toList cs with
  | none => none
  | some r1 =>
    match lexChar '(' (dropSpaces r1) with
    | none => none
    | some r2 => lexClass1 isWordChar (dropSpaces r2)

/-- `CMAKE_CXX_STANDARD\s+(\d+)`, case sensitive (no IGNORECASE flag on
this one search), at one position. -/
def stdMatchAt (cs : List Char) : Option (List Char × List Char) :=
  match lexLit "CMAKE_CXX_STANDARD".toList cs with
  | none => none
  | some r1 =>
    match lexSpaces1 r1 with
    | none => none
    | some r2 => lexClass1 isDigitChar r2

/-- `add_(executable|library)\s*\(\s*(\w+)` with IGNORECASE, at one
position; yields `(group(1).lower(), group(2))`. -/
def targetMatchAt (cs : List Char) : Option ((String × String) × List Char) :=
  match lexLitCI "add_".toList cs with
  | none => none
  | some r1 =>
    match (match lexLitCI "executable".toList r1 with
           | some r => some ("executable", r)
           | none =>
             match lexLitCI "library".toList r1 with
             | some r => some ("library", r)
             | none => none) with
    | none => none
    | some (ty, r2) =>
      match lexChar '(' (dropSpaces r2) with
      | none => none
      | some r3 =>
        match lexClass1 isWordChar (dropSpaces r3) with
        | none => none
        | some (g, r4) => some ((ty, String.mk g), r4)

/-- `find_package\s*\(\s*(\w+)` with IGNORECASE, at one position. -/
def pkgMatchAt (cs : List Char) : Option (List Char × List Char) :=
  match lexLitCI "find_package".toList cs with
  | none => none
  | some r1 =>
    match lexChar '(' (dropSpaces r1) with
    | none => none
    | some r2 => lexClass1 isWordChar (dropSpaces r2)

/-- `parse_cmake`: an absent file yields the all-empty record; otherwise
the first `project` match, the first standard match, and all target and
`find_package` matches in file order, duplicates preserved. -/
def parse_cmake : Option String → CMakeInfo
  | none => ⟨"", "", [], []⟩
  | some content =>
    let cs := content.toList
    ⟨(match reSearch projMatchAt cs with
      | some g => String.mk g
      | none => ""),
     (match reSearch stdMatchAt cs with
      | some g => String.mk g
      | none => ""),
     (reFind targetMatchAt cs).map (fun p => p.1),
     (reFind pkgMatchAt cs).map (fun p => String.mk p.1)⟩

/-- The star of `namespace\s+(\w+(?:::\w+)*)\s*\{`: zero or more
`::ident` continuations (greedy; giving an iteration back can never
help, since the pattern after the group cannot start with a colon).
Returns the consumed characters and the remainder. -/
def nsIdentTail : Nat → List Char → (List Char × List Char)
  | 0, cs => ([], cs)
  | fuel + 1, cs =>
    match cs with
    | ':' :: ':' :: c :: rest =>
      if isWordChar c then
        let seg := c :: rest.takeWhile isWordChar
        let (more, rest2) := nsIdentTail fuel (rest.dropWhile isWordChar)
        (':' :: ':' :: (seg ++ more), rest2)
      else ([], cs)
    | _ => ([], cs)

/-- `namespace\s+(\w+(?:::\w+)*)\s*\{` at one position; captures the
(possibly qualified) namespace name. -/
def nsMatchAt (cs : List Char) : Option (List Char × List Char) :=
  match lexLit "namespace".toList cs with
  | none => none
  | some r1 =>
    match lexSpaces1 r1 with
    | none => none
    | some r2 =>
      match lexClass1 isWordChar r2 with
      | none => none
      | some (seg, r3) =>
        let tail := nsIdentTail r3.length r3
        match lexChar lbrace (dropSpaces tail.2) with
        | none => none
        | some r4 => some (seg ++ tail.1, r4)

/-- The namespace extraction of `scan_headers`: first match in the
file, if any. -/
def nsSearch (content : String) : Option String :=
  match reSearch nsMatchAt content.toList with
  | some g => some (String.mk g)
  | none => none

def emptyModule (k : String) : Module := ⟨k, "", [], [], []⟩

/-- The Python dict upsert `modules[k]` (create on first use, appended
at the end in insertion order) followed by an update of that entry. -/
def upsert (k : String) (u : Module → Module) : List Module → List Module
  | [] => [u (emptyModule k)]
  | m :: ms => if m.name = k then u m :: ms else m :: upsert k u ms

/-- `if len(parts) > 1: parts[0] else "root"`. -/
def moduleKey : List String → String
  | [] => "root"
  | [_] => "root"
  | p :: _ :: _ => p

/-- The loop body of `scan_headers` for one header: append the relative
path to the module's header list, then store the first namespace match
only if the module does not already have one. -/
def updFn (f : HeaderFile) (m : Module) : Module :=
  let m1 : Module := { m with headers := m.headers ++ [relStr f.parts] }
  match nsSearch f.content with
  | some s => if m1.nspace = "" then { m1 with nspace := s } else m1
  | none => m1

def scanStep (ms : List Module) (f : HeaderFile) : List Module :=
  upsert (moduleKey f.parts) (updFn f) ms

def scanList (files : List HeaderFile) : List Module :=
  files.foldl scanStep []

/-- The `rglob("*.hpp")` enumeration of `scan_headers`: only files whose
name ends in `.hpp`. -/
def hppOnly (files : List HeaderFile) : List HeaderFile :=
  files.filter (fun f => strEnds (lastPart f.parts) ".hpp")

/-- `scan_headers`: `none` models an absent headers root (the
`include_dir.exists()` guard); the module dict is returned in insertion
order, as `.values()` later observes it. -/
def scan_headers : Option (List HeaderFile) → List Module
  | none => []
  | some files => scanList (hppOnly files)

/-- `scan_sources`: all `*.cpp`, then all `*.cc`, then all `*.cxx`
relative paths; `none` models an absent sources root. -/
def scan_sources : Option (List (List String)) → List String
  | none => []
  | some files =>
    ((files.filter (fun p => strEnds (lastPart p) ".cpp")).map relStr)
      ++ ((files.filter (fun p => strEnds (lastPart p) ".cc")).map relStr)
      ++ ((files.filter (fun p => strEnds (lastPart p) ".cxx")).map relStr)

/-- Models `cmake_info.get("project_name", root.name)`: `parse_cmake`
always stores the key (it is initialised to `""` before any matching),
so `dict.get` returns the stored value and the `root.name` default is
never consulted. -/
def dictGetOr (stored : String) (_dflt : String) : String := stored

/-- `analyze_project`.  `cmake` is the build file's text (`none` if
absent); `includeDir` is the enumerated file list of the first existing
headers-root candidate (`none` if no candidate exists), `srcDir`
likewise for the sources root; `rootName` is `Path(project_root).name`.
When a sources root exists, the flat source list is stored on the first
module, if any. -/
def analyze_project (cmake : Option String) (includeDir : Option (List HeaderFile))
    (srcDir : Option (List (List String))) (rootName : String) : ProjectInfo :=
  let ci := parse_cmake cmake
  let modules0 := scan_headers includeDir
  let modules :=
    match srcDir with
    | none => modules0
    | some files =>
      match modules0 with
      | [] => []
      | m :: rest => { m with sources := scan_sources (some files) } :: rest
  ⟨dictGetOr ci.project_name rootName,
   ci.cpp_standard,
   ci.targets.map (fun t => ⟨t.2, t.1, []⟩),
   modules,
   ci.find_packages⟩

/-! ### Derived definitions used to characterise the module scan -/

/-- Dict lookup `modules[k]` on the insertion-ordered module list. -/
def findM (ms : List Module) (k : String) : Option Module :=
  ms.find? (fun m => m.name == k)

/-- The scanned files that fall under module key `k`. -/
def filterK (l : List HeaderFile) (k : String) : List HeaderFile :=
  l.filter (fun f => moduleKey f.parts == k)

/-- The relative paths of the scanned files under module key `k`. -/
def pathsK (l : List HeaderFile) (k : String) : List String :=
  (filterK l k).map (fun f => relStr f.parts)

/-- The first namespace found across a file list: the namespace-pattern
match of the first file that has one. -/
def firstNs : List HeaderFile → String
  | [] => ""
  | f :: rest =>
    match nsSearch f.content with
    | some s => s
    | none => firstNs rest

/-- A module namespace already set (nonempty) is kept; otherwise it is
the first namespace found among the remaining files. -/
def nsResolve (old : String) (l : List HeaderFile) : String :=
  if old = "" then firstNs l else old

/-! ## Claim theorems -/

/-! ### Supporting lemmas -/

theorem lexClass1_ne_nil {p : Char → Bool} :
    ∀ cs g r, lexClass1 p cs = some (g, r) → g ≠ [] := by
  intro cs g r h
  match cs with
  | [] => simp [lexClass1] at h
  | c :: cs =>
    simp only [lexClass1] at h
    split at h
    · injection h with h
      have h1 : c :: cs.takeWhile p = g := congrArg Prod.fst h
      rw [← h1]
      exact List.cons_ne_nil _ _
    · cases h

theorem reFindAux_prop {α : Type} (P : α → Prop)
    (matchAt : List Char → Option (α × List Char))
    (h : ∀ cs a rem, matchAt cs = some (a, rem) → P a) :
    ∀ (fuel : Nat) (cs : List Char) (i : Nat) (x : α × Nat),
      x ∈ reFindAux matchAt fuel cs i → P x.1 := by
  intro fuel
  induction fuel with
  | zero => intro cs i x hx; simp [reFindAux] at hx
  | succ fuel ih =>
    intro cs i x hx
    match cs with
    | [] => simp [reFindAux] at hx
    | c :: rest =>
      rw [reFindAux] at hx
      cases hm : matchAt (c :: rest) with
      | none => rw [hm] at hx; exact ih _ _ _ hx
      | some ar =>
        rw [hm] at hx
        obtain ⟨a, rem⟩ := ar
        simp only at hx
        split at hx
        · exact ih _ _ _ hx
        · rcases List.mem_cons.mp hx with h1 | h2
          · subst h1; exact h _ a rem hm
          · exact ih _ _ _ h2

theorem nsMatchAt_ne_nil :
    ∀ cs g rem, nsMatchAt cs = some (g, rem) → g ≠ [] := by
  intro cs g rem h
  simp only [nsMatchAt] at h
  split at h
  · cases h
  · split at h
    · cases h
    · split at h
      · cases h
      · rename_i seg r3 hseg
        split at h
        · cases h
        · injection h with h
          have h1 : seg ++ (nsIdentTail r3.length r3).1 = g := congrArg Prod.fst h
          rw [← h1]
          have hseg2 := lexClass1_ne_nil _ _ _ hseg
          simp [hseg2]

theorem nsSearch_ne_empty : ∀ c s, nsSearch c = some s → s ≠ "" := by
  intro c s h
  unfold nsSearch reSearch at h
  cases hf : reFind nsMatchAt c.toList with
  | nil => rw [hf] at h; cases h
  | cons x xs =>
    rw [hf] at h
    have hx : x ∈ reFindAux nsMatchAt (c.toList.length + 1) c.toList 0 := by
      show x ∈ reFind nsMatchAt c.toList
      rw [hf]
      exact List.mem_cons_self x xs
    have hg : x.1 ≠ [] :=
      reFindAux_prop (fun g => g ≠ []) nsMatchAt nsMatchAt_ne_nil _ _ _ x hx
    injection h with h
    intro hs
    apply hg
    have hdata : (String.mk x.1).data = (s : String).data := by rw [h]
    rw [hs] at hdata
    simpa using hdata

theorem updFn_name (f : HeaderFile) (m : Module) : (updFn f m).name = m.name := by
  simp only [updFn]
  cases nsSearch f.content with
  | none => rfl
  | some s => dsimp only; split <;> rfl

theorem updFn_headers (f : HeaderFile) (m : Module) :
    (updFn f m).headers = m.headers ++ [relStr f.parts] := by
  simp only [updFn]
  cases nsSearch f.content with
  | none => rfl
  | some s => dsimp only; split <;> rfl

theorem updFn_sources (f : HeaderFile) (m : Module) :
    (updFn f m).sources = m.sources := by
  simp only [updFn]
  cases nsSearch f.content with
  | none => rfl
  | some s => dsimp only; split <;> rfl

theorem updFn_dependencies (f : HeaderFile) (m : Module) :
    (updFn f m).dependencies = m.dependencies := by
  simp only [updFn]
  cases nsSearch f.content with
  | none => rfl
  | some s => dsimp only; split <;> rfl

theorem updFn_nspace (f : HeaderFile) (m : Module) :
    (updFn f m).nspace =
      match nsSearch f.content with
      | some s => if m.nspace = "" then s else m.nspace
      | none => m.nspace := by
  simp only [updFn]
  cases nsSearch f.content with
  | none => rfl
  | some s => dsimp only; split <;> rfl

theorem findM_upsert_self (f : HeaderFile) (k : String) : ∀ ms,
    findM (upsert k (updFn f) ms) k =
      some (updFn f ((findM ms k).getD (emptyModule k))) := by
  intro ms
  induction ms with
  | nil =>
    simp [findM, upsert, List.find?_cons, updFn_name, emptyModule]
  | cons m ms ih =>
    by_cases h : m.name = k
    · simp [findM, upsert, h, List.find?_cons, updFn_name]
    · simp only [findM, upsert, if_neg h] at ih ⊢
      rw [List.find?_cons_of_neg, List.find?_cons_of_neg]
      · exact ih
      · simp [h]
      · simp [updFn_name, h]

theorem findM_upsert_ne (f : HeaderFile) (k k2 : String) (hne : k2 ≠ k) : ∀ ms,
    findM (upsert k (updFn f) ms) k2 = findM ms k2 := by
  intro ms
  induction ms with
  | nil =>
    simp [findM, upsert, List.find?_cons, updFn_name, emptyModule, hne,
      Ne.symm hne]
  | cons m ms ih =>
    by_cases h : m.name = k
    · have hm2 : ¬m.name = k2 := by rw [h]; exact fun hh => hne hh.symm
      have hkk2 : (k == k2) = false := beq_eq_false_iff_ne.mpr (Ne.symm hne)
      simp [findM, upsert, h, List.find?_cons, updFn_name, hm2, hkk2]
    · simp only [findM, upsert, if_neg h] at ih ⊢
      by_cases h2 : m.name = k2
      · simp [List.find?_cons, h2]
      · rw [List.find?_cons_of_neg, List.find?_cons_of_neg]
        · exact ih
        · simp [h2]
        · simp [h2]

/-- Characterisation of the `scan_headers` fold: the module found under
key `k` after folding a file list over an accumulator has exactly the
headers of the `k`-keyed files appended and the namespace resolved by
the first-match/no-overwrite rule. -/
theorem scanList_char : ∀ (l : List HeaderFile) (acc : List Module) (k : String),
    findM (l.foldl scanStep acc) k =
      match findM acc k with
      | some m0 =>
        some { m0 with nspace := nsResolve m0.nspace (filterK l k),
                       headers := m0.headers ++ pathsK l k }
      | none =>
        if l.any (fun f => moduleKey f.parts == k) then
          some ⟨k, firstNs (filterK l k), pathsK l k, [], []⟩
        else none := by
  intro l
  induction l with
  | nil =>
    intro acc k
    cases h : findM acc k with
    | none => simp [h, filterK, pathsK]
    | some m0 =>
      simp only [List.foldl_nil, h, filterK, pathsK, nsResolve, firstNs,
        List.filter_nil, List.map_nil, List.append_nil]
      cases m0 with
      | mk n ns hs ss ds =>
        by_cases hns : ns = "" <;> simp [hns, firstNs]
  | cons f t ih =>
    intro acc k
    rw [List.foldl_cons, ih (scanStep acc f) k]
    by_cases hk : moduleKey f.parts = k
    · have hstep : findM (scanStep acc f) k =
          some (updFn f ((findM acc k).getD (emptyModule k))) := by
        rw [scanStep, hk, findM_upsert_self]
      rw [hstep]
      have hfil : filterK (f :: t) k = f :: filterK t k := by
        simp [filterK, hk]
      have hpath : pathsK (f :: t) k = relStr f.parts :: pathsK t k := by
        simp [pathsK, hfil]
      cases h0 : findM acc k with
      | some m0 =>
        simp only [h0, Option.getD_some, Option.some_inj]
        cases m0 with
        | mk n ns hs ss ds =>
          refine Module.mk.injEq .. ▸ ⟨?_, ?_, ?_, ?_, ?_⟩
          · exact updFn_name f _
          · rw [updFn_nspace, hfil]
            cases hns : nsSearch f.content with
            | none =>
              dsimp only
              by_cases hns0 : ns = "" <;>
                simp [nsResolve, hns0, firstNs, hns]
            | some s =>
              dsimp only
              by_cases hns0 : ns = "" <;>
                simp [nsResolve, hns0, firstNs, hns, nsSearch_ne_empty _ _ hns]
          · rw [updFn_headers, hpath]
            dsimp only
            rw [List.append_assoc]
            rfl
          · exact updFn_sources f _
          · exact updFn_dependencies f _
      | none =>
        have hany : (f :: t).any (fun f => moduleKey f.parts == k) = true := by
          simp [hk]
        simp only [h0, Option.getD_none, hany, if_true]
        refine Option.some_inj.mpr ?_
        refine Module.mk.injEq .. ▸ ⟨?_, ?_, ?_, ?_, ?_⟩
        · rw [updFn_name]; rfl
        · rw [updFn_nspace, hfil]
          cases hns : nsSearch f.content with
          | none => simp [emptyModule, nsResolve, firstNs, hns]
          | some s =>
            simp [emptyModule, nsResolve, firstNs, hns,
              nsSearch_ne_empty _ _ hns]
        · rw [updFn_headers, hpath]
          simp [emptyModule]
        · rw [updFn_sources]; rfl
        · rw [updFn_dependencies]; rfl
    · have hstep : findM (scanStep acc f) k = findM acc k := by
        rw [scanStep]
        exact findM_upsert_ne f _ _ (fun hh => hk hh.symm) acc
      have hfil : filterK (f :: t) k = filterK t k := by
        simp [filterK, hk]
      have hpath : pathsK (f :: t) k = pathsK t k := by
        simp [pathsK, hfil]
      have hany : (f :: t).any (fun f => moduleKey f.parts == k)
          = t.any (fun f => moduleKey f.parts == k) := by
        simp [hk]
      rw [hstep, hfil, hpath, hany]

/-- The characterisation instantiated at the empty accumulator:
`scan_headers`' module under key `k`. -/
theorem findM_scanList (l : List HeaderFile) (k : String) :
    findM (scanList l) k =
      if l.any (fun f => moduleKey f.parts == k) then
        some ⟨k, firstNs (filterK l k), pathsK l k, [], []⟩
      else none := by
  have h := scanList_char l [] k
  simpa [findM, scanList] using h

theorem firstNs_append (a b : List HeaderFile) (h : firstNs a ≠ "") :
    firstNs (a ++ b) = firstNs a := by
  induction a with
  | nil => exact absurd rfl h
  | cons f t ih =>
    cases hns : nsSearch f.content with
    | some s => simp [firstNs, hns]
    | none =>
      have ht : firstNs t ≠ "" := by
        simpa [firstNs, hns] using h
      simp [firstNs, hns, ih ht]

theorem upsert_sources_nil (k : String) (f : HeaderFile) :
    ∀ ms, (∀ m ∈ ms, Module.sources m = []) →
      ∀ m ∈ upsert k (updFn f) ms, m.sources = [] := by
  intro ms
  induction ms with
  | nil =>
    intro _ m hm
    simp only [upsert, List.mem_singleton] at hm
    subst hm
    rw [updFn_sources]
    rfl
  | cons m0 ms ih =>
    intro hall m hm
    simp only [upsert] at hm
    split at hm
    · rcases List.mem_cons.mp hm with h1 | h2
      · subst h1
        rw [updFn_sources]
        exact hall m0 (List.mem_cons_self _ _)
      · exact hall m (List.mem_cons_of_mem _ h2)
    · rcases List.mem_cons.mp hm with h1 | h2
      · subst h1
        exact hall m (List.mem_cons_self _ _)
      · exact ih (fun m2 hm2 => hall m2 (List.mem_cons_of_mem _ hm2)) m h2

theorem scanList_sources_nil : ∀ (l : List HeaderFile) (acc : List Module),
    (∀ m ∈ acc, Module.sources m = []) →
      ∀ m ∈ l.foldl scanStep acc, m.sources = [] := by
  intro l
  induction l with
  | nil => intro acc h; exact h
  | cons f t ih =>
    intro acc h
    rw [List.foldl_cons]
    exact ih _ (upsert_sources_nil _ f acc h)

theorem scanH_sources_nil : ∀ (inc : Option (List HeaderFile)) (m : Module),
    m ∈ scan_headers inc → m.sources = [] := by
  intro inc m hm
  cases inc with
  | none => simp [scan_headers] at hm
  | some files => exact scanList_sources_nil _ [] (by simp) m hm

theorem startsWithL_iff : ∀ a b : List Char,
    startsWithL a b = true ↔ ∃ t, b = a ++ t := by
  intro a
  induction a with
  | nil =>
    intro b
    simp only [startsWithL, List.nil_append, true_iff]
    exact ⟨b, rfl⟩
  | cons x xs ih =>
    intro b
    cases b with
    | nil =>
      simp [startsWithL]
    | cons y ys =>
      simp only [startsWithL, Bool.and_eq_true, beq_iff_eq, List.cons_append]
      constructor
      · rintro ⟨h1, h2⟩
        obtain ⟨t, ht⟩ := (ih ys).mp h2
        exact ⟨t, by rw [ht, h1]⟩
      · rintro ⟨t, ht⟩
        injection ht with h1 h2
        exact ⟨h1.symm, (ih ys).mpr ⟨t, h2⟩⟩

theorem strEnds_trans {a b c : String} (h1 : strEnds a b = true)
    (h2 : strEnds b c = true) : strEnds a c = true := by
  unfold strEnds at h1 h2 ⊢
  obtain ⟨t1, ht1⟩ := (startsWithL_iff _ _).mp h1
  obtain ⟨t2, ht2⟩ := (startsWithL_iff _ _).mp h2
  exact (startsWithL_iff _ _).mpr ⟨t2 ++ t1, by rw [ht1, ht2, List.append_assoc]⟩

theorem string_toList_append (a b : String) :
    (a ++ b).toList = a.toList ++ b.toList := by
  cases a with
  | mk da =>
    cases b with
    | mk db => rfl

theorem strEnds_append_left (a b suf : String) (h : strEnds b suf = true) :
    strEnds (a ++ b) suf = true := by
  unfold strEnds at h ⊢
  obtain ⟨t, ht⟩ := (startsWithL_iff _ _).mp h
  apply (startsWithL_iff _ _).mpr
  refine ⟨t ++ a.toList.reverse, ?_⟩
  rw [string_toList_append, List.reverse_append, ht, List.append_assoc]

theorem strEnds_relStr (parts : List String) (suf : String)
    (hsuf : suf.toList ≠ [])
    (h : strEnds (lastPart parts) suf = true) :
    strEnds (relStr parts) suf = true := by
  induction parts with
  | nil =>
    exfalso
    unfold strEnds at h
    cases hsr : suf.toList.reverse with
    | nil => exact hsuf (by simpa using hsr)
    | cons c cs =>
      rw [hsr] at h
      simp [startsWithL, lastPart] at h
  | cons p rest ih =>
    cases rest with
    | nil => simpa [relStr, lastPart] using h
    | cons q rest2 =>
      have h3 := ih (by simpa [lastPart] using h)
      show strEnds (p ++ "/" ++ relStr (q :: rest2)) suf = true
      exact strEnds_append_left _ _ _ h3

theorem ends_hpp_not_h (s : String) (h : strEnds s ".hpp" = true) :
    strEnds s ".h" = false := by
  unfold strEnds at h ⊢
  rw [show (".hpp" : String).toList.reverse = ['p', 'p', 'h', '.'] from rfl] at h
  rw [show (".h" : String).toList.reverse = ['h', '.'] from rfl]
  cases hs : s.toList.reverse with
  | nil => rw [hs] at h; exact absurd h (by decide)
  | cons c cs =>
    rw [hs] at h
    simp only [startsWithL, Bool.and_eq_true, beq_iff_eq] at h
    obtain ⟨hc, -⟩ := h
    simp [startsWithL, ← hc]

theorem upsert_headers_hpp (k : String) (f : HeaderFile)
    (hf : strEnds (relStr f.parts) ".hpp" = true) :
    ∀ ms, (∀ m ∈ ms, ∀ h ∈ Module.headers m, strEnds h ".hpp" = true) →
      ∀ m ∈ upsert k (updFn f) ms, ∀ h ∈ m.headers, strEnds h ".hpp" = true := by
  intro ms
  induction ms with
  | nil =>
    intro _ m hm h hh
    simp only [upsert, List.mem_singleton] at hm
    subst hm
    rw [updFn_headers] at hh
    simp only [emptyModule, List.nil_append, List.mem_singleton] at hh
    subst hh
    exact hf
  | cons m0 ms ih =>
    intro hall m hm h hh
    simp only [upsert] at hm
    split at hm
    · rcases List.mem_cons.mp hm with h1 | h2
      · subst h1
        rw [updFn_headers] at hh
        rcases List.mem_append.mp hh with h3 | h3
        · exact hall m0 (List.mem_cons_self _ _) h h3
        · rw [List.mem_singleton] at h3
          subst h3
          exact hf
      · exact hall m (List.mem_cons_of_mem _ h2) h hh
    · rcases List.mem_cons.mp hm with h1 | h2
      · subst h1
        exact hall m (List.mem_cons_self _ _) h hh
      · exact ih (fun m2 hm2 => hall m2 (List.mem_cons_of_mem _ hm2)) m h2 h hh

theorem scanList_headers_hpp : ∀ (l : List HeaderFile) (acc : List Module),
    (∀ f ∈ l, strEnds (relStr f.parts) ".hpp" = true) →
    (∀ m ∈ acc, ∀ h ∈ Module.headers m, strEnds h ".hpp" = true) →
      ∀ m ∈ l.foldl scanStep acc, ∀ h ∈ m.headers, strEnds h ".hpp" = true := by
  intro l
  induction l with
  | nil => intro acc _ hacc; exact hacc
  | cons f t ih =>
    intro acc hl hacc
    rw [List.foldl_cons]
    exact ih _ (fun g hg => hl g (List.mem_cons_of_mem _ hg))
      (upsert_headers_hpp _ f (hl f (List.mem_cons_self _ _)) acc hacc)

theorem scanH_headers_hpp : ∀ (files : List HeaderFile) (m : Module),
    m ∈ scan_headers (some files) → ∀ h ∈ m.headers, strEnds h ".hpp" = true := by
  intro files m hm
  refine scanList_headers_hpp (hppOnly files) [] ?_ (by simp) m hm
  intro f hf
  have hends := (List.mem_filter.mp hf).2
  exact strEnds_relStr f.parts ".hpp" (by decide) hends

/-- C1 (code bug witness): a project root named `myproject` whose
`CMakeLists.txt` exists but contains no project declaration.  The spec
says the `ProjectInfo` name falls back to the root directory's name, and
the code even writes that fallback (`cmake_info.get("project_name",
root.name)`) — but `parse_cmake` always stores the `project_name` key,
so the default is dead and the resulting name is the empty string, not
`"myproject"`. -/
theorem C1_code_bug_eval :
    (parse_cmake (some "# no declarations here")).project_name = ""
      ∧ (analyze_project (some "# no declarations here") none none "myproject").name = ""
      ∧ (analyze_project (some "# no declarations here") none none "myproject").name
          ≠ "myproject" := by
  refine ⟨rfl, rfl, ?_⟩
  decide

/-- C10: the language-standard pattern is matched case-sensitively
(lower-case `cmake_cxx_standard 17` yields an empty standard, upper-case
yields `"17"`), unlike the project, target and package patterns, which
are matched with IGNORECASE. -/
theorem C10_case_sensitivity :
    (parse_cmake (some "cmake_cxx_standard 17")).cpp_standard = ""
      ∧ (parse_cmake (some "CMAKE_CXX_STANDARD 17")).cpp_standard = "17"
      ∧ (parse_cmake (some "set(CMAKE_CXX_STANDARD 17)")).cpp_standard = "17"
      ∧ (parse_cmake (some "PROJECT(Demo)")).project_name = "Demo"
      ∧ (parse_cmake (some "ADD_LIBRARY(core)")).targets = [("library", "core")]
      ∧ (parse_cmake (some "FIND_PACKAGE(Boost)")).find_packages = ["Boost"] :=
  ⟨rfl, rfl, rfl, rfl, rfl, rfl⟩

/-- C8: every absent input degrades to an empty/default result — an
absent build file gives the all-empty build info, an absent headers root
an empty module map, an absent sources root an empty source list, and
with both roots absent `analyze_project` still returns a `ProjectInfo`
whose modules list is empty (so there are no sources lists at all),
built purely from the build-file fields. -/
theorem C8_missing_inputs :
    parse_cmake none = ⟨"", "", [], []⟩
      ∧ scan_headers none = []
      ∧ scan_sources none = []
      ∧ (∀ (cmake : Option String) (rootName : String),
          analyze_project cmake none none rootName =
            ⟨dictGetOr (parse_cmake cmake).project_name rootName,
             (parse_cmake cmake).cpp_standard,
             (parse_cmake cmake).targets.map (fun t => ⟨t.2, t.1, []⟩),
             [],
             (parse_cmake cmake).find_packages⟩) :=
  ⟨rfl, rfl, rfl, fun _ _ => rfl⟩

/-- C3: the classifier checks the four keyword groups in the fixed order
protocol, business, network, utility, case-insensitively by substring,
and returns the first matching group's tier; with no match it defaults
to `(P3, utility)`.  Concretely `parseHeader ↦ (P0, protocol)`,
`sendRequest ↦ (P2, network)`, `getValue ↦ (P3, utility)`, and
`handleAndParse ↦ (P0, protocol)` (protocol is tested before business,
so `parse` beats `handle`). -/
theorem C3_classifier :
    classify_function "parseHeader" = ("P0", "protocol")
      ∧ classify_function "sendRequest" = ("P2", "network")
      ∧ classify_function "getValue" = ("P3", "utility")
      ∧ classify_function "handleAndParse" = ("P0", "protocol")
      ∧ (∀ nm : String,
          (∀ g ∈ KEYWORD_PATTERNS, ∀ k ∈ g.keywords,
            containsL k.toList (nm.toList.map Char.toLower) = false) →
          classify_function nm = ("P3", "utility")) := by
  refine ⟨by decide, by decide, by decide, by decide, ?_⟩
  intro nm h
  unfold classify_function
  have hnone : KEYWORD_PATTERNS.find?
      (fun g => g.keywords.any
        (fun k => containsL k.toList (nm.toList.map Char.toLower))) = none := by
    rw [List.find?_eq_none]
    intro g hg
    simp only [List.any_eq_true, not_exists, not_and]
    intro k hk
    exact (h g hg k hk) ▸ Bool.false_ne_true
  rw [hnone]

/-- C3 witness: the defaulting branch applied at the concrete
keyword-free name `bar`. -/
theorem C3_classifier_witness : classify_function "bar" = ("P3", "utility") :=
  C3_classifier.2.2.2.2 "bar" (by decide)

/-- C4: the extractor never emits a `FunctionInfo` whose name starts
with `~`, whose return-type text equals its name text, or whose name
starts with `operator`; and on `class Foo { int bar(); };` it emits
exactly `bar`, qualified `Foo::bar` (no constructor `Foo`, no destructor
`~Foo`). -/
theorem C4_filters :
    (∀ (fn c : String) (fi : FunctionInfo), fi ∈ extract_functions fn c →
      startsWithL ['~'] fi.name.toList = false
        ∧ fi.return_type ≠ fi.name
        ∧ startsWithL "operator".toList fi.name.toList = false)
      ∧ extract_functions "h.hpp" "class Foo \x7b int bar(); \x7d;" =
          [⟨"bar", "Foo::bar", "h.hpp", 1, "int bar()", "int", "P3", "utility"⟩] := by
  constructor
  · intro fn c fi hfi
    simp only [extract_functions, List.mem_filterMap] at hfi
    obtain ⟨p, _, he⟩ := hfi
    simp only [emitOne] at he
    split at he
    · exact absurd he (by simp)
    · split at he
      · exact absurd he (by simp)
      · rename_i h1 h2
        rw [Bool.not_eq_true, Bool.or_eq_false_iff] at h1
        injection he with he
        subst he
        refine ⟨h1.1, ?_, by rw [Bool.not_eq_true] at h2; exact h2⟩
        intro heq
        injection heq with heq
        exact absurd heq (beq_eq_false_iff_ne.mp h1.2)
  · rfl

/-- C4 witness: the filter facts instantiated at the one declaration
emitted from `class Foo { int bar(); };`. -/
theorem C4_filters_witness :
    startsWithL ['~'] (String.toList "bar") = false
      ∧ ("int" : String) ≠ "bar"
      ∧ startsWithL "operator".toList (String.toList "bar") = false :=
  C4_filters.1 "h.hpp" "class Foo \x7b int bar(); \x7d;"
    ⟨"bar", "Foo::bar", "h.hpp", 1, "int bar()", "int", "P3", "utility"⟩
    (by rw [C4_filters.2]; exact List.mem_singleton_self _)

/-- C2 counterexample: on the header
`struct Q { }; struct A : pub(x) void g() {};` the single emitted
declaration `g` has function-match start offset 31, and the
CLASS_PATTERN matches of the whole header text are `Q` (start 0) and `A`
(start 14) — so the last type-declaration match starting before the
function match's start is `A` — yet the code attributes `g` to `Q`
(`Q::g`), because it re-scans only the text truncated at offset 31, in
which `A`'s declaration (whose match is only completed by the open brace
at offset 41) does not match at all. -/
theorem C2_counterexample :
    ((extract_functions "h.hpp"
        "struct Q \x7b \x7d; struct A : pub(x) void g() \x7b\x7d;").map
        (fun fi => fi.full_name) = ["Q::g"])
      ∧ ((fnMatches ("struct Q \x7b \x7d; struct A : pub(x) void g() \x7b\x7d;").toList).map
          (fun p => (String.mk p.1.nm, p.2)) = [("g", 31)])
      ∧ ((reFind classMatchAt
            ("struct Q \x7b \x7d; struct A : pub(x) void g() \x7b\x7d;").toList).map
          (fun q => (String.mk q.1, q.2)) = [("Q", 0), ("A", 14)])
      ∧ lastClassStartingBefore
          ("struct Q \x7b \x7d; struct A : pub(x) void g() \x7b\x7d;").toList 31 = "A"
      ∧ ("Q::g" : String) ≠ "A::g" :=
  ⟨rfl, rfl, rfl, rfl, by decide⟩

/-- C2 (amended): every emitted declaration is attributed to the last
CLASS_PATTERN match found when re-scanning the text truncated at the
function match's start offset (so a type declaration whose match is not
completed before that offset is not considered); brace closure is never
consulted, and in particular for
`struct A { void f(); }; struct B { void g(); };` the function `g` is
attributed `B::g`, not `A::g`. -/
theorem C2_prefix_attribution :
    (∀ (fn c : String) (fi : FunctionInfo), fi ∈ extract_functions fn c →
      ∃ p ∈ fnMatches c.toList,
        fi.name = String.mk (pyStrip p.1.nm)
          ∧ fi.full_name =
              (if lastClassBefore c.toList p.2 == "" then fi.name
               else lastClassBefore c.toList p.2 ++ "::" ++ fi.name))
      ∧ (extract_functions "h.hpp"
            "struct A \x7b void f(); \x7d; struct B \x7b void g(); \x7d;").map
          (fun fi => (fi.name, fi.full_name)) = [("f", "A::f"), ("g", "B::g")] := by
  constructor
  · intro fn c fi hfi
    simp only [extract_functions, List.mem_filterMap] at hfi
    obtain ⟨p, hp, he⟩ := hfi
    simp only [emitOne] at he
    split at he
    · exact absurd he (by simp)
    · split at he
      · exact absurd he (by simp)
      · injection he with he
        subst he
        exact ⟨p, hp, rfl, rfl⟩
  · rfl

/-- C2 witness: the attribution characterisation applied to the
declaration `g` extracted from the two-struct example header. -/
theorem C2_prefix_attribution_witness :
    ∃ p ∈ fnMatches
        ("struct A \x7b void f(); \x7d; struct B \x7b void g(); \x7d;" : String).toList,
      ("g" : String) = String.mk (pyStrip p.1.nm)
        ∧ ("B::g" : String) =
            (if lastClassBefore
                ("struct A \x7b void f(); \x7d; struct B \x7b void g(); \x7d;" : String).toList
                p.2 == "" then ("g" : String)
             else lastClassBefore
                ("struct A \x7b void f(); \x7d; struct B \x7b void g(); \x7d;" : String).toList
                p.2 ++ "::" ++ ("g" : String)) :=
  C2_prefix_attribution.1 "h.hpp"
    "struct A \x7b void f(); \x7d; struct B \x7b void g(); \x7d;"
    ⟨"g", "B::g", "h.hpp", 1, "void g()", "void", "P3", "utility"⟩
    (by decide)

/-- C5: every scanned header is grouped into the module keyed by the
first segment of its root-relative path (`"root"` when the header sits
directly at the root), with the relative path appended to that module's
headers list.  Concretely, `netio/socket.hpp` and `netio/buffer.hpp`
collapse into one module `netio` with two header entries, and `util.hpp`
falls into a module named `root`. -/
theorem C5_module_grouping :
    (∀ (files : List HeaderFile) (f : HeaderFile), f ∈ files →
      strEnds (lastPart f.parts) ".hpp" = true →
      ∃ m ∈ scan_headers (some files),
        m.name = moduleKey f.parts ∧ relStr f.parts ∈ m.headers)
      ∧ scan_headers
          (some [⟨["netio", "socket.hpp"], ""⟩, ⟨["netio", "buffer.hpp"], ""⟩])
          = [⟨"netio", "", ["netio/socket.hpp", "netio/buffer.hpp"], [], []⟩]
      ∧ scan_headers (some [⟨["util.hpp"], ""⟩])
          = [⟨"root", "", ["util.hpp"], [], []⟩] := by
  refine ⟨?_, rfl, rfl⟩
  intro files f hf hhpp
  have hf2 : f ∈ hppOnly files := List.mem_filter.mpr ⟨hf, hhpp⟩
  have hany : (hppOnly files).any
      (fun g => moduleKey g.parts == moduleKey f.parts) = true := by
    rw [List.any_eq_true]
    exact ⟨f, hf2, by simp⟩
  have hfind := findM_scanList (hppOnly files) (moduleKey f.parts)
  rw [hany] at hfind
  simp only [if_pos rfl] at hfind
  refine ⟨⟨moduleKey f.parts,
      firstNs (filterK (hppOnly files) (moduleKey f.parts)),
      pathsK (hppOnly files) (moduleKey f.parts), [], []⟩,
    List.mem_of_find?_eq_some hfind, rfl, ?_⟩
  simp only [pathsK, List.mem_map]
  exact ⟨f, List.mem_filter.mpr ⟨hf2, by simp⟩, rfl⟩

/-- C5 witness: the grouping fact applied to `netio/socket.hpp` in the
two-header example. -/
theorem C5_module_grouping_witness :
    ∃ m ∈ scan_headers
        (some [⟨["netio", "socket.hpp"], ""⟩, ⟨["netio", "buffer.hpp"], ""⟩]),
      m.name = moduleKey ["netio", "socket.hpp"]
        ∧ relStr ["netio", "socket.hpp"] ∈ m.headers :=
  C5_module_grouping.1 _ ⟨["netio", "socket.hpp"], ""⟩
    (List.mem_cons_self _ _) (by decide)

/-- C6: a module's namespace is set at most once per scan — it is the
namespace-pattern match of the first header of that module containing
one, and a namespace found in a later header of the same module never
overwrites an already-set (nonempty) namespace, even when more files are
appended to the scan. -/
theorem C6_namespace_set_once :
    (∀ (files : List HeaderFile) (k : String) (m : Module),
      findM (scan_headers (some files)) k = some m →
      m.nspace = firstNs (filterK (hppOnly files) k))
      ∧ (∀ (files extra : List HeaderFile) (k : String) (m m2 : Module),
          findM (scan_headers (some files)) k = some m →
          m.nspace ≠ "" →
          findM (scan_headers (some (files ++ extra))) k = some m2 →
          m2.nspace = m.nspace) := by
  have pt1 : ∀ (files : List HeaderFile) (k : String) (m : Module),
      findM (scan_headers (some files)) k = some m →
      m.nspace = firstNs (filterK (hppOnly files) k) := by
    intro files k m h
    simp only [scan_headers] at h
    rw [findM_scanList] at h
    split at h
    · injection h with h
      rw [← h]
    · cases h
  refine ⟨pt1, ?_⟩
  intro files extra k m m2 h1 hne h2
  have e1 := pt1 files k m h1
  have e2 := pt1 (files ++ extra) k m2 h2
  have hsplit : filterK (hppOnly (files ++ extra)) k
      = filterK (hppOnly files) k ++ filterK (hppOnly extra) k := by
    simp [hppOnly, filterK, List.filter_append]
  rw [e2, hsplit, firstNs_append _ _ (e1 ▸ hne), ← e1]

/-- C6 witness: with `m/a.hpp` declaring `namespace alpha` scanned
first and `m/b.hpp` declaring `namespace beta` appended afterwards, the
module `m` keeps namespace `alpha`. -/
theorem C6_namespace_set_once_witness :
    (⟨"m", "alpha", ["m/a.hpp", "m/b.hpp"], [], []⟩ : Module).nspace
      = (⟨"m", "alpha", ["m/a.hpp"], [], []⟩ : Module).nspace :=
  C6_namespace_set_once.2
    [⟨["m", "a.hpp"], "namespace alpha \x7b"⟩]
    [⟨["m", "b.hpp"], "namespace beta \x7b"⟩]
    "m" _ _ rfl (by decide) rfl

/-- C7: when a sources root exists, the flat discovered source list is
assigned to exactly the first module of the modules list (when any
module exists), and every other module's sources list is left empty. -/
theorem C7_sources_first_module :
    ∀ (cmake : Option String) (inc : Option (List HeaderFile))
      (src : List (List String)) (rootName : String)
      (m0 : Module) (tl : List Module),
      (analyze_project cmake inc (some src) rootName).modules = m0 :: tl →
      m0.sources = scan_sources (some src) ∧ ∀ m ∈ tl, m.sources = [] := by
  intro cmake inc src rootName m0 tl h
  simp only [analyze_project] at h
  cases hsc : scan_headers inc with
  | nil => rw [hsc] at h; cases h
  | cons m rest =>
    rw [hsc] at h
    injection h with h1 h2
    constructor
    · rw [← h1]
    · intro m2 hm2
      rw [← h2] at hm2
      exact scanH_sources_nil inc m2 (hsc ▸ List.mem_cons_of_mem _ hm2)

/-- C7 witness: with two modules `a` and `b` and one discovered source
`main.cpp`, the first module holds the source list and the second's
sources stay empty. -/
theorem C7_sources_first_module_witness :
    (⟨"a", "", ["a/x.hpp"], ["main.cpp"], []⟩ : Module).sources
        = scan_sources (some [["main.cpp"]])
      ∧ ∀ m ∈ [(⟨"b", "", ["b/y.hpp"], [], []⟩ : Module)], m.sources = [] :=
  C7_sources_first_module none
    (some [⟨["a", "x.hpp"], ""⟩, ⟨["b", "y.hpp"], ""⟩])
    [["main.cpp"]] "r" _ _ rfl

/-- C9: `scan_headers` enumerates only `*.hpp` files — removing every
`.h`-suffixed file from the enumeration does not change its output,
every path in any module's headers list ends in `.hpp` (and hence not in
`.h`), and the relative path of a `.h` file never appears in any
module's headers list — while `scan_directory` scans both `*.hpp` and
`*.h` files, so the same lone `util.h` yields no module but does yield
an extracted function. -/
theorem C9_scan_extension_gap :
    (∀ files : List HeaderFile,
      scan_headers (some files)
        = scan_headers
            (some (files.filter (fun f => !strEnds (lastPart f.parts) ".h"))))
      ∧ (∀ (files : List HeaderFile) (m : Module), m ∈ scan_headers (some files) →
          ∀ h ∈ m.headers, strEnds h ".hpp" = true ∧ strEnds h ".h" = false)
      ∧ (∀ (files : List HeaderFile) (f : HeaderFile), f ∈ files →
          strEnds (lastPart f.parts) ".h" = true →
          ∀ m ∈ scan_headers (some files), relStr f.parts ∉ m.headers)
      ∧ scan_headers (some [⟨["util.h"], "int getX();"⟩]) = []
      ∧ scan_directory [⟨["util.h"], "int getX();"⟩]
          = [⟨"getX", "getX", "util.h", 1, "int getX()", "int", "P3", "utility"⟩] := by
  have pt2 : ∀ (files : List HeaderFile) (m : Module), m ∈ scan_headers (some files) →
      ∀ h ∈ m.headers, strEnds h ".hpp" = true ∧ strEnds h ".h" = false := by
    intro files m hm h hh
    have h1 := scanH_headers_hpp files m hm h hh
    exact ⟨h1, ends_hpp_not_h h h1⟩
  refine ⟨?_, pt2, ?_, rfl, rfl⟩
  · intro files
    show scanList (hppOnly files) = scanList (hppOnly _)
    have : hppOnly (files.filter (fun f => !strEnds (lastPart f.parts) ".h"))
        = hppOnly files := by
      unfold hppOnly
      rw [List.filter_filter]
      apply List.filter_congr
      intro f _
      cases hhpp : strEnds (lastPart f.parts) ".hpp" with
      | false => simp
      | true => simp [ends_hpp_not_h _ hhpp]
    rw [this]
  · intro files f hf hendsh m hm hmem
    have h2 := (pt2 files m hm (relStr f.parts) hmem).2
    have h3 : strEnds (relStr f.parts) ".h" = true :=
      strEnds_relStr f.parts ".h" (by decide) hendsh
    rw [h2] at h3
    cases h3

/-- C9 witness: the headers-list invariant applied to the single header
entry of the `netio` module. -/
theorem C9_scan_extension_gap_witness :
    strEnds "netio/socket.hpp" ".hpp" = true
      ∧ strEnds "netio/socket.hpp" ".h" = false :=
  C9_scan_extension_gap.2.1 [⟨["netio", "socket.hpp"], ""⟩]
    ⟨"netio", "", ["netio/socket.hpp"], [], []⟩
    (by decide) "netio/socket.hpp" (by decide)

end CppAnalyzer
